import Mathlib

/-!
Verification of the faleproxy HTML rewrite service.

This file gives a shallow embedding of the `POST /fetch` handler of
`src/app.js`: URL normalization, base-tag handling, attribute
absolutization, the Yale→Fale text substitution pass, title handling,
style injection, serialization, and the surrounding request handler with
its error paths.  Strings are modelled as `List Char`; the parsed HTML
document is modelled as a tree of element/text/comment nodes (the shape
cheerio's parser produces).  JavaScript built-ins used by the source
(`String.prototype.replace` with a global literal pattern,
`String.prototype.startsWith`, `String.prototype.match` on the scheme
regex) are modelled by the corresponding total functions on `List Char`.
The WHATWG `new URL(value, base)` resolution used at `src/app.js:64` is
external library code; the rewrite is therefore parameterized over an
arbitrary resolver, and a small concrete model of standard URL
resolution is provided for evaluating concrete documents.
-/

namespace Faleproxy

/-- Character-list strings, the model of JavaScript strings. -/
abbrev Str := List Char

/-- Shorthand turning a Lean string literal into the `Str` model. -/
def strOf (s : String) : Str := s.toList

/-- Fuel-driven worker for `replaceAll`.  Models one left-to-right scan of
JavaScript `s.replace(/pat/g, repl)` with a literal pattern: at each
position, if the pattern matches, emit the replacement and continue after
the matched segment; otherwise emit the character and advance by one.
The fuel only makes the recursion structural; `replaceAll` supplies
enough fuel for the scan to finish. -/
def replaceAllF (pat repl : Str) : Nat → Str → Str
  | 0, s => s
  | _ + 1, [] => []
  | fuel + 1, c :: cs =>
    if List.isPrefixOf pat (c :: cs) && !pat.isEmpty then
      repl ++ replaceAllF pat repl fuel (List.drop (pat.length - 1) cs)
    else
      c :: replaceAllF pat repl fuel cs

/-- Model of JavaScript `s.replace(/pat/g, repl)` for a literal pattern:
global, left-to-right, non-overlapping replacement. -/
def replaceAll (pat repl s : Str) : Str := replaceAllF pat repl s.length s

/-- The three case-specific substitutions of `src/app.js:80-83` (and
97-101), in source order: `Yale`→`Fale`, then `YALE`→`FALE`, then
`yale`→`fale`. -/
def yaleToFale (s : Str) : Str :=
  replaceAll (strOf "yale") (strOf "fale")
    (replaceAll (strOf "YALE") (strOf "FALE")
      (replaceAll (strOf "Yale") (strOf "Fale") s))

mutual
/-- A node of the parsed HTML document: a text node, a comment node, or
an element with a tag name, an ordered attribute list and ordered
children — the tree cheerio's parser produces at `src/app.js:42`. -/
inductive Node where
  | text (s : Str)
  | comment (s : Str)
  | elem (name : Str) (attrs : List (Str × Str)) (children : NodeList)
/-- Ordered child lists of `Node`, as a mutual inductive so that all
recursions over the tree are structural. -/
inductive NodeList where
  | nil
  | cons (hd : Node) (tl : NodeList)
end

/-- Appends two child lists. -/
def nlAppend : NodeList → NodeList → NodeList
  | .nil, ys => ys
  | .cons x xs, ys => .cons x (nlAppend xs ys)

/-- Looks up an attribute by name (first occurrence), modelling
cheerio's `.attr(name)` getter. -/
def getAttr (name : Str) : List (Str × Str) → Option Str
  | [] => none
  | (n, v) :: rest => if n = name then some v else getAttr name rest

/-- Custom simultaneous induction principle for the mutual node types. -/
theorem nodeInd {P : Node → Prop} {Q : NodeList → Prop}
    (ht : ∀ s, P (.text s)) (hc : ∀ s, P (.comment s))
    (he : ∀ n a cs, Q cs → P (.elem n a cs))
    (hn : Q .nil) (hcons : ∀ c cs, P c → Q cs → Q (.cons c cs)) :
    (∀ t, P t) ∧ (∀ cs, Q cs) :=
  ⟨fun t => Node.rec ht hc he hn hcons t,
   fun cs => NodeList.rec ht hc he hn hcons cs⟩

/-- Case-insensitive prefix test on the string model, used to embed the
case-insensitive regex match of `src/app.js:29`. -/
def ciStarts (p s : Str) : Bool :=
  List.isPrefixOf (p.map Char.toLower) (s.map Char.toLower)

/-- Embeds the test `url.match(/^https?:\/\//i)` of `src/app.js:29`: the
url starts with `http://` or `https://`, case-insensitively. -/
def matchesHttpScheme (s : Str) : Bool :=
  ciStarts (strOf "http://") s || ciStarts (strOf "https://") s

/-- URL normalization of `src/app.js:28-31`: prepend `https://` when the
scheme test fails, otherwise leave the url unchanged. -/
def normalizeUrl (s : Str) : Str :=
  if matchesHttpScheme s then s else strOf "https://" ++ s

mutual
/-- First `base` element of the document in document order, modelling
the cheerio selection `$('base')` of `src/app.js:50`. -/
def findBase : Node → Option Node
  | .text _ => none
  | .comment _ => none
  | .elem n a cs =>
    if n = strOf "base" then some (.elem n a cs) else findBaseL cs
termination_by structural t => t
/-- List worker for `findBase`. -/
def findBaseL : NodeList → Option Node
  | .nil => none
  | .cons c cs =>
    match findBase c with
    | some b => some b
    | none => findBaseL cs
termination_by structural l => l
end

/-- Embeds the condition `baseTag.length && baseTag.attr('href')` of
`src/app.js:51`: a `base` element exists and its `href` attribute is
present and non-empty (a missing or empty attribute is falsy). -/
def baseHrefTruthy (doc : Node) : Bool :=
  match findBase doc with
  | some (.elem _ a _) =>
    match getAttr (strOf "href") a with
    | some v => !v.isEmpty
    | none => false
  | _ => false

/-- The base element `<base href="{url}">` built by `src/app.js:55`. -/
def baseNode (url : Str) : Node := .elem (strOf "base") [(strOf "href", url)] .nil

mutual
/-- Inserts a fresh node as the first child of every `head` element,
modelling `$('head').prepend(...)` of `src/app.js:55`. -/
def prependToHeads (nw : Node) : Node → Node
  | .text s => .text s
  | .comment s => .comment s
  | .elem n a cs =>
    let cs' := prependToHeadsL nw cs
    .elem n a (if n = strOf "head" then .cons nw cs' else cs')
termination_by structural t => t
/-- List worker for `prependToHeads`. -/
def prependToHeadsL (nw : Node) : NodeList → NodeList
  | .nil => .nil
  | .cons c cs => .cons (prependToHeads nw c) (prependToHeadsL nw cs)
termination_by structural l => l
end

/-- The base-tag step of `src/app.js:48-56`: when a `base` element with a
truthy `href` exists the document is left as is (the discovered href is
bound to the otherwise-unused local `baseUrl`); otherwise
`<base href="{url}">` is prepended to `head`. -/
def baseStep (url : Str) (doc : Node) : Node :=
  if baseHrefTruthy doc then doc else prependToHeads (baseNode url) doc

/-- The four attribute names of `src/app.js:59`. -/
def urlAttrNames : List Str :=
  [strOf "src", strOf "href", strOf "action", strOf "data-src"]

/-- Embeds the guard of `src/app.js:63`: the attribute value is truthy
(non-empty) and starts with none of the five protected prefixes, each
test a case-sensitive JavaScript `startsWith`. -/
def guardAttr (v : Str) : Bool :=
  !v.isEmpty
    && !(List.isPrefixOf (strOf "http") v)
    && !(List.isPrefixOf (strOf "//") v)
    && !(List.isPrefixOf (strOf "#") v)
    && !(List.isPrefixOf (strOf "javascript:") v)
    && !(List.isPrefixOf (strOf "data:") v)

/-- One attribute update of `src/app.js:60-66`: a `src`/`href`/`action`/
`data-src` attribute passing the guard is replaced by
`new URL(value, url).href`, here an arbitrary fallible resolver applied
to the value and the source url (`url`, not the discovered base); any
other attribute is untouched.  A resolver exception propagates. -/
def rewriteAttrPair (resolve : Str → Str → Except Str Str) (url : Str)
    (p : Str × Str) : Except Str (Str × Str) :=
  if urlAttrNames.contains p.1 && guardAttr p.2 then
    match resolve p.2 url with
    | .error e => .error e
    | .ok w => .ok (p.1, w)
  else .ok p

/-- Maps a fallible function over a list, stopping at the first error. -/
def mapE (f : α → Except Str β) : List α → Except Str (List β)
  | [] => .ok []
  | x :: xs =>
    match f x with
    | .error e => .error e
    | .ok y =>
      match mapE f xs with
      | .error e => .error e
      | .ok ys => .ok (y :: ys)

mutual
/-- The attribute absolutization pass of `src/app.js:58-67`, applied to
every element of the tree.  The source iterates attribute-name-major
(`urlAttributes.forEach` over `$('[attr]')`); on success the result is
identical, the iteration order only selects which resolver error
surfaces first. -/
def rewriteUrlsNode (resolve : Str → Str → Except Str Str) (url : Str) :
    Node → Except Str Node
  | .text s => .ok (.text s)
  | .comment s => .ok (.comment s)
  | .elem n a cs =>
    match mapE (rewriteAttrPair resolve url) a with
    | .error e => .error e
    | .ok a' =>
      match rewriteUrlsList resolve url cs with
      | .error e => .error e
      | .ok cs' => .ok (.elem n a' cs')
termination_by structural t => t
/-- List worker for `rewriteUrlsNode`. -/
def rewriteUrlsList (resolve : Str → Str → Except Str Str) (url : Str) :
    NodeList → Except Str NodeList
  | .nil => .ok .nil
  | .cons c cs =>
    match rewriteUrlsNode resolve url c with
    | .error e => .error e
    | .ok c' =>
      match rewriteUrlsList resolve url cs with
      | .error e => .error e
      | .ok cs' => .ok (.cons c' cs')
termination_by structural l => l
end

/-- The skip test of `src/app.js:72`. -/
def isScriptOrStyle (n : Str) : Bool := n = strOf "script" || n = strOf "style"

mutual
/-- The text-substitution pass of `src/app.js:70-95`.  `$('*').each(processNode)`
visits every element of the tree; `processNode` returns immediately on
`script`/`style` elements and otherwise substitutes its direct text
children and recurses into element children.  Net effect, modelled here:
a text node is substituted exactly when the name of its direct parent
element is not `script`/`style` (the substitution is idempotent, so the
overlap between the `$('*')` visits and the recursion is immaterial). -/
def substNode : Node → Node
  | .text s => .text s
  | .comment s => .comment s
  | .elem n a cs => .elem n a (substUnder n cs)
termination_by structural t => t
/-- Substitutes the text children of an element named `parent` and
recurses into the other children. -/
def substUnder (parent : Str) : NodeList → NodeList
  | .nil => .nil
  | .cons (.text s) cs =>
    .cons (if isScriptOrStyle parent then .text s else .text (yaleToFale s))
      (substUnder parent cs)
  | .cons c cs => .cons (substNode c) (substUnder parent cs)
termination_by structural l => l
end

mutual
/-- Concatenated text of all descendant text nodes, modelling jQuery's
`.text()` getter (comments are excluded). -/
def textContent : Node → Str
  | .text s => s
  | .comment _ => []
  | .elem _ _ cs => textContentL cs
termination_by structural t => t
/-- List worker for `textContent`. -/
def textContentL : NodeList → Str
  | .nil => []
  | .cons c cs => textContent c ++ textContentL cs
termination_by structural l => l
end

mutual
/-- Concatenated text of every `title` element, modelling
`$('title').text()` at `src/app.js:98`. -/
def titleTexts : Node → Str
  | .text _ => []
  | .comment _ => []
  | .elem n _ cs =>
    (if n = strOf "title" then textContentL cs else []) ++ titleTextsL cs
termination_by structural t => t
/-- List worker for `titleTexts`. -/
def titleTextsL : NodeList → Str
  | .nil => []
  | .cons c cs => titleTexts c ++ titleTextsL cs
termination_by structural l => l
end

mutual
/-- Sets the content of every `title` element to a single text node,
modelling the `$('title').text(title)` setter of `src/app.js:102`. -/
def setTitleText (t : Str) : Node → Node
  | .text s => .text s
  | .comment s => .comment s
  | .elem n a cs =>
    if n = strOf "title" then .elem n a (.cons (.text t) .nil)
    else .elem n a (setTitleTextL t cs)
termination_by structural nd => nd
/-- List worker for `setTitleText`. -/
def setTitleTextL (t : Str) : NodeList → NodeList
  | .nil => .nil
  | .cons c cs => .cons (setTitleText t c) (setTitleTextL t cs)
termination_by structural l => l
end

/-- An apostrophe character, kept out of string literals. -/
def apos : Char := Char.ofNat 39

/-- Leading whitespace text of the fragment appended at `src/app.js:105-110`. -/
def styleWsBefore : Str := strOf "\n      "

/-- CSS text of the injected `<style>` block of `src/app.js:106-109`. -/
def styleCss : Str :=
  strOf "\n        img, video, iframe \x7b max-width: 100%; height: auto; \x7d\n        body \x7b font-family: -apple-system, BlinkMacSystemFont, "
    ++ [apos] ++ strOf "Segoe UI" ++ [apos]
    ++ strOf ", Roboto, sans-serif; \x7d\n      "

/-- Trailing whitespace text of the fragment appended at `src/app.js:105-110`. -/
def styleWsAfter : Str := strOf "\n    "

/-- The three parsed nodes of the appended style fragment. -/
def styleFragment : NodeList :=
  .cons (.text styleWsBefore)
    (.cons (.elem (strOf "style") [] (.cons (.text styleCss) .nil))
      (.cons (.text styleWsAfter) .nil))

mutual
/-- Appends the style fragment to the children of every `head` element,
modelling `$('head').append(...)` of `src/app.js:105-110`. -/
def appendStyleToHeads : Node → Node
  | .text s => .text s
  | .comment s => .comment s
  | .elem n a cs =>
    let cs' := appendStyleToHeadsL cs
    .elem n a (if n = strOf "head" then nlAppend cs' styleFragment else cs')
termination_by structural t => t
/-- List worker for `appendStyleToHeads`. -/
def appendStyleToHeadsL : NodeList → NodeList
  | .nil => .nil
  | .cons c cs => .cons (appendStyleToHeads c) (appendStyleToHeadsL cs)
termination_by structural l => l
end

/-- Serializes an attribute list as ` name="value"` pairs. -/
def serializeAttrs : List (Str × Str) → Str
  | [] => []
  | (n, v) :: rest =>
    ' ' :: (n ++ ('=' :: '"' :: (v ++ ('"' :: serializeAttrs rest))))

mutual
/-- Serializes the tree back to HTML text, modelling cheerio's `$.html()`
at `src/app.js:114` (with `decodeEntities: false` text is emitted raw;
void-element syntax is simplified to explicit close tags, which does not
affect the substring properties considered here). -/
def serializeNode : Node → Str
  | .text s => s
  | .comment s => strOf "<!--" ++ s ++ strOf "-->"
  | .elem n a cs =>
    '<' :: (n ++ serializeAttrs a
      ++ ('>' :: (serializeL cs ++ ('<' :: '/' :: (n ++ ['>'])))))
termination_by structural t => t
/-- List worker for `serializeNode`. -/
def serializeL : NodeList → Str
  | .nil => []
  | .cons c cs => serializeNode c ++ serializeL cs
termination_by structural l => l
end

/-- The rewrite pipeline of `src/app.js:42-110` in source order: base-tag
step, attribute absolutization, text substitution, title extraction and
re-substitution, style injection.  Returns the final tree and the
substituted title, or the first propagated resolver error. -/
def rewriteDoc (resolve : Str → Str → Except Str Str) (url : Str) (doc : Node) :
    Except Str (Node × Str) :=
  let doc1 := baseStep url doc
  match rewriteUrlsNode resolve url doc1 with
  | .error e => .error e
  | .ok doc2 =>
    let doc3 := substNode doc2
    let t := yaleToFale (titleTexts doc3)
    let doc4 := setTitleText t doc3
    let doc5 := appendStyleToHeads doc4
    .ok (doc5, t)

/-- A JavaScript value occupying the `url` field of the request body. -/
inductive JsVal where
  | undef
  | str (s : Str)
  | num (n : Int)
  | boolean (b : Bool)

/-- JavaScript truthiness of the modelled values, for `if (!url)` at
`src/app.js:24`. -/
def truthy : JsVal → Bool
  | .undef => false
  | .str s => !s.isEmpty
  | .num n => decide (n ≠ 0)
  | .boolean b => b

/-- The success payload of `src/app.js:112-117`. -/
structure SuccessBody where
  success : Bool
  content : Str
  title : Str
  originalUrl : Str

/-- The three possible responses of the `POST /fetch` handler: 400 with
an error string, 200 with the success payload, 500 with an error
string. -/
inductive HandlerResult where
  | badRequest (error : Str)
  | ok (body : SuccessBody)
  | serverError (error : Str)

/-- Error message of the 400 response at `src/app.js:25`. -/
def urlRequiredMsg : Str := strOf "URL is required"

/-- Fixed prefix of the 500 error string at `src/app.js:121`. -/
def failMsgHead : Str := strOf "Failed to fetch content: "

/-- Modelled from the JavaScript runtime: message of the `TypeError`
raised by `url.match(...)` at `src/app.js:29` when `url` is not a
string. -/
def urlMatchTypeErrMsg : Str := strOf "url.match is not a function"

/-- The `POST /fetch` handler of `src/app.js:20-124`.  `fetch` stands for
the `axios.get` call followed by the cheerio parse (it yields a parsed
tree or a failure message); `resolve` stands for WHATWG `new URL`.  The
single `try/catch` maps any thrown failure message `m` to a 500 response
with error `"Failed to fetch content: " ++ m`. -/
def fetchHandler (resolve : Str → Str → Except Str Str)
    (fetch : Str → Except Str Node) (urlVal : JsVal) : HandlerResult :=
  if !truthy urlVal then .badRequest urlRequiredMsg
  else
    match urlVal with
    | .str u =>
      let url := normalizeUrl u
      match fetch url with
      | .error m => .serverError (failMsgHead ++ m)
      | .ok doc =>
        match rewriteDoc resolve url doc with
        | .error m => .serverError (failMsgHead ++ m)
        | .ok (d, t) => .ok ⟨true, serializeNode d, t, url⟩
    | _ => .serverError (failMsgHead ++ urlMatchTypeErrMsg)

/-- Strips a final path segment, keeping the trailing slash. -/
def dropLastSeg (p : Str) : Str :=
  (List.dropWhile (fun c => c != '/') p.reverse).reverse

/-- Modelled from the spec: generic URL resolution `new URL(value, url).href`
(`src/app.js:64` calls the WHATWG URL library, which is not part of this
repository).  The model covers the shapes exercised here — an absolute
`http(s)` base, and a value that is empty, path-absolute, or relative:
an empty value resolves to the base, a leading-slash value replaces the
base path, any other value replaces the last base path segment. -/
def resolveUrlModel (rel base : Str) : Str :=
  if rel.isEmpty then base
  else
    let scheme :=
      if List.isPrefixOf (strOf "https://") base then List.take 8 base
      else if List.isPrefixOf (strOf "http://") base then List.take 7 base
      else []
    let rest := List.drop scheme.length base
    let host := List.takeWhile (fun c => c != '/') rest
    let path := List.drop host.length rest
    if List.isPrefixOf (strOf "/") rel then scheme ++ host ++ rel
    else
      let dir := dropLastSeg path
      scheme ++ host ++ (if dir.isEmpty then strOf "/" else dir) ++ rel

/-- The model resolver as a total resolver in the fallible interface. -/
def resolveModelE (rel base : Str) : Except Str Str :=
  .ok (resolveUrlModel rel base)

/-- Observes a pipeline result through a projection, yielding `none` on
the error case; used to state facts about concrete runs without needing
decidable equality on trees. -/
def okMap (f : Node × Str → α) : Except Str (Node × Str) → Option α
  | .ok x => some (f x)
  | .error _ => none

mutual
/-- All attribute pairs of the tree, in depth-first document order. -/
def attrsOf : Node → List (Str × Str)
  | .text _ => []
  | .comment _ => []
  | .elem _ a cs => a ++ attrsOfL cs
termination_by structural t => t
/-- List worker for `attrsOf`. -/
def attrsOfL : NodeList → List (Str × Str)
  | .nil => []
  | .cons c cs => attrsOf c ++ attrsOfL cs
termination_by structural l => l
end

mutual
/-- Contents of the text nodes whose direct parent element is not a
`script`/`style` element, in document order. -/
def textsOutside : Node → List Str
  | .text _ => []
  | .comment _ => []
  | .elem n _ cs => textsOutsideL n cs
termination_by structural t => t
/-- Text children under a parent named `parent`, plus the recursive
collection from element children. -/
def textsOutsideL (parent : Str) : NodeList → List Str
  | .nil => []
  | .cons (.text s) cs =>
    (if isScriptOrStyle parent then [] else [s]) ++ textsOutsideL parent cs
  | .cons c cs => textsOutside c ++ textsOutsideL parent cs
termination_by structural l => l
end

/-- Holds when the string contains none of the three substituted
substrings `Yale`, `YALE`, `yale`. -/
def yaleFree (s : Str) : Bool :=
  !(decide (strOf "Yale" <:+: s))
    && !(decide (strOf "YALE" <:+: s))
    && !(decide (strOf "yale" <:+: s))

mutual
/-- Every `script` and `style` element of the tree, as complete subtrees,
in document order. -/
def scriptStyleElems : Node → List Node
  | .text _ => []
  | .comment _ => []
  | .elem n a cs =>
    (if isScriptOrStyle n then [Node.elem n a cs] else []) ++ scriptStyleElemsL cs
termination_by structural t => t
/-- List worker for `scriptStyleElems`. -/
def scriptStyleElemsL : NodeList → List Node
  | .nil => []
  | .cons c cs => scriptStyleElems c ++ scriptStyleElemsL cs
termination_by structural l => l
end

/-- Holds when every node of the list is a text node. -/
def allTextNodes : NodeList → Bool
  | .nil => true
  | .cons (.text _) cs => allTextNodes cs
  | .cons _ _ => false

mutual
/-- Holds when every `script`/`style` element of the tree has only text
children — true of every tree produced by an HTML parser, where
`script`/`style` content is raw text. -/
def scriptStyleTextOnly : Node → Bool
  | .text _ => true
  | .comment _ => true
  | .elem n _ cs =>
    (if isScriptOrStyle n then allTextNodes cs else true) && scriptStyleTextOnlyL cs
termination_by structural t => t
/-- List worker for `scriptStyleTextOnly`. -/
def scriptStyleTextOnlyL : NodeList → Bool
  | .nil => true
  | .cons c cs => scriptStyleTextOnly c && scriptStyleTextOnlyL cs
termination_by structural l => l
end



/-- An infix starting with a character absent from `repl` cannot start
inside `repl`; it is an infix of the tail. -/
theorem infix_drop_of_head_notMem {c : Char} {p t : Str} :
    ∀ {repl : Str}, c ∉ repl → (c :: p) <:+: (repl ++ t) → (c :: p) <:+: t := by
  intro repl
  induction repl with
  | nil => intro _ h; simpa using h
  | cons r rs ih =>
    intro hc h
    rw [List.cons_append] at h
    rcases List.infix_cons_iff.mp h with hpre | hinf
    · rcases List.cons_prefix_cons.mp hpre with ⟨rfl, _⟩
      exact absurd (List.mem_cons_self _ _) hc
    · exact ih (fun hm => hc (List.mem_cons_of_mem _ hm)) hinf

/-- A prefix of a `replaceAllF` output avoiding the replacement's first
character is a prefix of the input. -/
theorem prefix_of_prefix_replaceAllF {r : Char} {rs pat : Str} :
    ∀ (fuel : Nat) (s p' : Str), (∀ x ∈ p', x ≠ r) →
      p' <+: replaceAllF pat (r :: rs) fuel s → p' <+: s := by
  intro fuel
  induction fuel with
  | zero => intro s p' _ h; simpa [replaceAllF] using h
  | succ fuel ih =>
    intro s p' hx h
    match s with
    | [] => simpa [replaceAllF] using h
    | c :: cs =>
      rw [replaceAllF] at h
      split at h
      · match p', h with
        | [], _ => exact List.nil_prefix
        | x :: p'', h =>
          rw [List.cons_append] at h
          rcases List.cons_prefix_cons.mp h with ⟨rfl, _⟩
          exact absurd rfl (hx _ (List.mem_cons_self _ _))
      · match p', h with
        | [], _ => exact List.nil_prefix
        | x :: p'', h =>
          rcases List.cons_prefix_cons.mp h with ⟨rfl, hp⟩
          exact List.cons_prefix_cons.mpr
            ⟨rfl, ih cs p'' (fun a ha => hx a (List.mem_cons_of_mem _ ha)) hp⟩

/-- Replacing every occurrence of a pattern leaves no occurrence of it,
provided the pattern's head does not occur in the replacement and the
replacement's head does not occur in the pattern's tail. -/
theorem not_infix_replaceAllF_self {y r : Char} {p' rs : Str}
    (hy : y ∉ r :: rs) (hp : ∀ x ∈ p', x ≠ r) :
    ∀ (fuel : Nat) (s : Str), s.length ≤ fuel →
      ¬ (y :: p') <:+: replaceAllF (y :: p') (r :: rs) fuel s := by
  intro fuel
  induction fuel with
  | zero =>
    intro s hs h
    rw [List.length_eq_zero.mp (Nat.le_zero.mp hs)] at h
    simp [replaceAllF] at h
  | succ fuel ih =>
    intro s hs h
    match s with
    | [] => simp [replaceAllF, List.infix_nil] at h
    | c :: cs =>
      rw [replaceAllF] at h
      split at h
      case isTrue hcond =>
        have h2 := infix_drop_of_head_notMem hy h
        have hlen : (List.drop ((y :: p').length - 1) cs).length ≤ fuel := by
          rw [List.length_drop]
          simp only [List.length_cons] at hs
          omega
        exact ih _ hlen h2
      case isFalse hcond =>
        rcases List.infix_cons_iff.mp h with hpre | hinf
        · rcases List.cons_prefix_cons.mp hpre with ⟨rfl, hp2⟩
          have : p' <+: cs := prefix_of_prefix_replaceAllF fuel cs p' hp hp2
          have : List.isPrefixOf (y :: p') (y :: cs) = true := by
            rw [List.isPrefixOf_iff_prefix]
            exact List.cons_prefix_cons.mpr ⟨rfl, this⟩
          simp [this] at hcond
        · exact ih cs (by simp only [List.length_cons] at hs; omega) hinf

/-- Replacing occurrences of one pattern introduces no occurrence of a
different word whose head does not occur in the replacement and whose
tail avoids the replacement's head. -/
theorem not_infix_replaceAllF_other {y r : Char} {p1 pat2 rs : Str}
    (hy : y ∉ r :: rs) (hp : ∀ x ∈ p1, x ≠ r) :
    ∀ (fuel : Nat) (s : Str), ¬ (y :: p1) <:+: s →
      ¬ (y :: p1) <:+: replaceAllF pat2 (r :: rs) fuel s := by
  intro fuel
  induction fuel with
  | zero => intro s hs h; rw [replaceAllF] at h; exact hs h
  | succ fuel ih =>
    intro s hs h
    match s with
    | [] => simp [replaceAllF, List.infix_nil] at h
    | c :: cs =>
      rw [replaceAllF] at h
      split at h
      case isTrue hcond =>
        have h2 := infix_drop_of_head_notMem hy h
        have hcs : ¬ (y :: p1) <:+: List.drop (pat2.length - 1) cs := fun hin =>
          hs (hin.trans ((List.drop_suffix _ _).isInfix.trans
            (List.infix_cons_iff.mpr (Or.inr (List.infix_refl _)))))
        exact ih _ hcs h2
      case isFalse hcond =>
        rcases List.infix_cons_iff.mp h with hpre | hinf
        · rcases List.cons_prefix_cons.mp hpre with ⟨rfl, hp2⟩
          have : p1 <+: cs := prefix_of_prefix_replaceAllF fuel cs p1 hp hp2
          exact hs (List.infix_cons_iff.mpr (Or.inl (List.cons_prefix_cons.mpr ⟨rfl, this⟩)))
        · exact ih cs (fun hin => hs (List.infix_cons_iff.mpr (Or.inr hin))) hinf

set_option maxRecDepth 4000

/-- The composed substitution output contains none of `Yale`, `YALE`,
`yale`. -/
theorem yaleFree_yaleToFale (s : Str) : yaleFree (yaleToFale s) = true := by
  have hY1 : ¬ strOf "Yale" <:+: replaceAll (strOf "Yale") (strOf "Fale") s :=
    @not_infix_replaceAllF_self 'Y' 'F' (strOf "ale") (strOf "ale")
      (by decide) (by decide) _ _ le_rfl
  have hY2 : ¬ strOf "Yale" <:+:
      replaceAll (strOf "YALE") (strOf "FALE")
        (replaceAll (strOf "Yale") (strOf "Fale") s) :=
    @not_infix_replaceAllF_other 'Y' 'F' (strOf "ale") (strOf "YALE") (strOf "ALE")
      (by decide) (by decide) _ _ hY1
  have hY3 : ¬ strOf "Yale" <:+: yaleToFale s :=
    @not_infix_replaceAllF_other 'Y' 'f' (strOf "ale") (strOf "yale") (strOf "ale")
      (by decide) (by decide) _ _ hY2
  have hU2 : ¬ strOf "YALE" <:+:
      replaceAll (strOf "YALE") (strOf "FALE")
        (replaceAll (strOf "Yale") (strOf "Fale") s) :=
    @not_infix_replaceAllF_self 'Y' 'F' (strOf "ALE") (strOf "ALE")
      (by decide) (by decide) _ _ le_rfl
  have hU3 : ¬ strOf "YALE" <:+: yaleToFale s :=
    @not_infix_replaceAllF_other 'Y' 'f' (strOf "ALE") (strOf "yale") (strOf "ale")
      (by decide) (by decide) _ _ hU2
  have hL3 : ¬ strOf "yale" <:+: yaleToFale s :=
    @not_infix_replaceAllF_self 'y' 'f' (strOf "ale") (strOf "ale")
      (by decide) (by decide) _ _ le_rfl
  simp only [yaleFree, Bool.and_eq_true, Bool.not_eq_true', decide_eq_false_iff_not]
  exact ⟨⟨hY3, hU3⟩, hL3⟩

/-- The substitution pass maps the text nodes outside `script`/`style`
exactly by `yaleToFale`. -/
theorem textsOutside_subst :
    (∀ t, textsOutside (substNode t) = List.map yaleToFale (textsOutside t)) ∧
    (∀ cs, ∀ p : Str, textsOutsideL p (substUnder p cs)
      = List.map yaleToFale (textsOutsideL p cs)) := by
  refine nodeInd ?_ ?_ ?_ ?_ ?_
  · intro s; rfl
  · intro s; rfl
  · intro n a cs ih; simpa [substNode, textsOutside] using ih n
  · intro p; rfl
  · intro c cs ihc ihcs p
    cases c with
    | text s =>
      by_cases hp : isScriptOrStyle p = true
      · simp [substUnder, textsOutsideL, hp, ihcs p]
      · simp [substUnder, textsOutsideL, hp, ihcs p]
    | comment s => simp [substUnder, textsOutsideL, substNode, textsOutside, ihcs p]
    | elem n a cs2 =>
      simp only [substNode] at ihc
      simp [substUnder, textsOutsideL, ihc, ihcs p]


/-- Text collection distributes over child-list append. -/
theorem textsOutsideL_nlAppend :
    ∀ a b (p : Str), textsOutsideL p (nlAppend a b)
      = textsOutsideL p a ++ textsOutsideL p b := by
  have h := nodeInd (P := fun _ => True)
    (Q := fun a => ∀ b (p : Str), textsOutsideL p (nlAppend a b)
      = textsOutsideL p a ++ textsOutsideL p b)
    (fun _ => trivial) (fun _ => trivial) (fun _ _ _ _ => trivial) ?_ ?_
  · exact h.2
  · intro b p; rfl
  · intro c cs _ ihcs b p
    cases c with
    | text s => simp [nlAppend, textsOutsideL, ihcs b p]
    | comment s => simp [nlAppend, textsOutsideL, ihcs b p]
    | elem n a cs2 => simp [nlAppend, textsOutsideL, ihcs b p]

/-- Unfolding lemma: collected texts of a child list headed by an element. -/
theorem textsOutsideL_cons_elem (p n : Str) (a : List (Str × Str)) (cs rest : NodeList) :
    textsOutsideL p (.cons (.elem n a cs) rest) = textsOutsideL n cs ++ textsOutsideL p rest := rfl

/-- Setting the title content preserves the `yaleFree` property of the
texts outside `script`/`style`, provided the new title text is itself
`yaleFree`. -/
theorem setTitle_yaleFree :
    (∀ t ttl, yaleFree ttl = true → (textsOutside t).all yaleFree = true →
      (textsOutside (setTitleText ttl t)).all yaleFree = true) ∧
    (∀ cs, ∀ ttl (p : Str), yaleFree ttl = true →
      (textsOutsideL p cs).all yaleFree = true →
      (textsOutsideL p (setTitleTextL ttl cs)).all yaleFree = true) := by
  refine nodeInd ?_ ?_ ?_ ?_ ?_
  · intro s ttl _ h; exact h
  · intro s ttl _ h; exact h
  · intro n a cs ih ttl hf h
    by_cases hn : n = strOf "title"
    · subst hn
      have hsty : isScriptOrStyle (strOf "title") = false := by decide
      simp [setTitleText, textsOutside, textsOutsideL, hsty, hf]
    · simp only [setTitleText, hn, if_false, textsOutside] at h ⊢
      exact ih ttl n hf h
  · intro ttl p _ h; exact h
  · intro c cs ihc ihcs ttl p hf h
    cases c with
    | text s =>
      by_cases hp : isScriptOrStyle p = true
      · simp_all [setTitleTextL, setTitleText, textsOutsideL]
        exact ihcs ttl p hf h
      · simp_all [setTitleTextL, setTitleText, textsOutsideL]
        exact ihcs ttl p hf h.2
    | comment s =>
      simp only [setTitleTextL, setTitleText, textsOutsideL, textsOutside,
        List.nil_append] at h ⊢
      exact ihcs ttl p hf h
    | elem n a cs2 =>
      simp only [textsOutsideL, textsOutside, List.all_append, Bool.and_eq_true] at h
      have h1 := ihc ttl hf (by simpa [textsOutside] using h.1)
      by_cases hn : n = strOf "title"
      · subst hn
        have hrw : setTitleText ttl (Node.elem (strOf "title") a cs2)
            = Node.elem (strOf "title") a (NodeList.cons (Node.text ttl) NodeList.nil) := by
          simp [setTitleText]
        rw [hrw] at h1
        simp only [textsOutside] at h1
        rw [show setTitleTextL ttl (NodeList.cons (Node.elem (strOf "title") a cs2) cs)
              = NodeList.cons (setTitleText ttl (Node.elem (strOf "title") a cs2))
                  (setTitleTextL ttl cs) from rfl]
        rw [hrw, textsOutsideL_cons_elem]
        simp only [List.all_append, Bool.and_eq_true]
        exact ⟨h1, ihcs ttl p hf h.2⟩
      · have hrw : setTitleText ttl (Node.elem n a cs2)
            = Node.elem n a (setTitleTextL ttl cs2) := by
          simp [setTitleText, hn]
        rw [hrw] at h1
        simp only [textsOutside] at h1
        rw [show setTitleTextL ttl (NodeList.cons (Node.elem n a cs2) cs)
              = NodeList.cons (setTitleText ttl (Node.elem n a cs2))
                  (setTitleTextL ttl cs) from rfl]
        rw [hrw, textsOutsideL_cons_elem]
        simp only [List.all_append, Bool.and_eq_true]
        exact ⟨h1, ihcs ttl p hf h.2⟩

/-- Appending the style fragment to heads preserves the `yaleFree`
property of the texts outside `script`/`style`. -/
theorem appendStyle_yaleFree :
    (∀ t, (textsOutside t).all yaleFree = true →
      (textsOutside (appendStyleToHeads t)).all yaleFree = true) ∧
    (∀ cs, ∀ p : Str, (textsOutsideL p cs).all yaleFree = true →
      (textsOutsideL p (appendStyleToHeadsL cs)).all yaleFree = true) := by
  refine nodeInd ?_ ?_ ?_ ?_ ?_
  · intro s h; exact h
  · intro s h; exact h
  · intro n a cs ih h
    simp only [textsOutside] at h
    by_cases hn : n = strOf "head"
    · subst hn
      have hrw : appendStyleToHeads (Node.elem (strOf "head") a cs)
          = Node.elem (strOf "head") a (nlAppend (appendStyleToHeadsL cs) styleFragment) := by
        simp [appendStyleToHeads]
      rw [hrw]
      simp only [textsOutside]
      rw [textsOutsideL_nlAppend]
      simp only [List.all_append, Bool.and_eq_true]
      refine ⟨ih _ h, ?_⟩
      decide
    · simp only [appendStyleToHeads]
      rw [if_neg hn]
      simp only [textsOutside]
      exact ih n h
  · intro p h; exact h
  · intro c cs ihc ihcs p h
    cases c with
    | text s =>
      by_cases hp : isScriptOrStyle p = true
      · simp_all [appendStyleToHeadsL, appendStyleToHeads, textsOutsideL]
        exact ihcs p h
      · simp_all [appendStyleToHeadsL, appendStyleToHeads, textsOutsideL]
        exact ihcs p h.2
    | comment s =>
      simp only [appendStyleToHeadsL, appendStyleToHeads, textsOutsideL, textsOutside,
        List.nil_append] at h ⊢
      exact ihcs p h
    | elem n a cs2 =>
      simp only [textsOutsideL, textsOutside, List.all_append, Bool.and_eq_true] at h
      have h1 := ihc (by simpa [textsOutside] using h.1)
      by_cases hn : n = strOf "head"
      · subst hn
        have hrw : appendStyleToHeads (Node.elem (strOf "head") a cs2)
            = Node.elem (strOf "head") a (nlAppend (appendStyleToHeadsL cs2) styleFragment) := by
          simp [appendStyleToHeads]
        rw [hrw] at h1
        simp only [textsOutside] at h1
        rw [show appendStyleToHeadsL (NodeList.cons (Node.elem (strOf "head") a cs2) cs)
              = NodeList.cons (appendStyleToHeads (Node.elem (strOf "head") a cs2))
                  (appendStyleToHeadsL cs) from rfl]
        rw [hrw, textsOutsideL_cons_elem]
        simp only [List.all_append, Bool.and_eq_true]
        exact ⟨h1, ihcs p h.2⟩
      · have hrw : appendStyleToHeads (Node.elem n a cs2)
            = Node.elem n a (appendStyleToHeadsL cs2) := by
          simp [appendStyleToHeads, hn]
        rw [hrw] at h1
        simp only [textsOutside] at h1
        rw [show appendStyleToHeadsL (NodeList.cons (Node.elem n a cs2) cs)
              = NodeList.cons (appendStyleToHeads (Node.elem n a cs2))
                  (appendStyleToHeadsL cs) from rfl]
        rw [hrw, textsOutsideL_cons_elem]
        simp only [List.all_append, Bool.and_eq_true]
        exact ⟨h1, ihcs p h.2⟩


/-- Extracts the payload of a successful pipeline run (junk on error). -/
def theOk : Except Str (Node × Str) → Node × Str
  | .ok p => p
  | .error _ => (.text [], [])

/-- C1 (amended): the substitution pass maps every text node whose
parent is not `script`/`style` through the three substitutions, and on a
successful rewrite every text node of the output outside `script`/`style`
(and the returned title) is free of `Yale`, `YALE` and `yale`; attribute
values and comments, however, are not substituted. -/
theorem c1_text_substitution :
    (∀ t, textsOutside (substNode t) = List.map yaleToFale (textsOutside t)) ∧
    (∀ (resolve : Str → Str → Except Str Str) (url : Str) (doc out : Node) (ttl : Str),
      rewriteDoc resolve url doc = .ok (out, ttl) →
      (textsOutside out).all yaleFree = true ∧ yaleFree ttl = true) := by
  refine ⟨textsOutside_subst.1, ?_⟩
  intro resolve url doc out ttl h
  have hdef : rewriteDoc resolve url doc
      = match rewriteUrlsNode resolve url (baseStep url doc) with
        | .error e => .error e
        | .ok doc2 =>
          .ok (appendStyleToHeads
                (setTitleText (yaleToFale (titleTexts (substNode doc2))) (substNode doc2)),
              yaleToFale (titleTexts (substNode doc2))) := rfl
  rw [hdef] at h
  cases hrw : rewriteUrlsNode resolve url (baseStep url doc) with
  | error e => rw [hrw] at h; exact absurd h (by simp)
  | ok doc2 =>
    rw [hrw] at h
    simp only [Except.ok.injEq, Prod.mk.injEq] at h
    obtain ⟨hout, httl⟩ := h
    subst hout
    subst httl
    have httlf : yaleFree (yaleToFale (titleTexts (substNode doc2))) = true :=
      yaleFree_yaleToFale _
    refine ⟨?_, httlf⟩
    have hsub : (textsOutside (substNode doc2)).all yaleFree = true := by
      rw [textsOutside_subst.1, List.all_map]
      exact List.all_eq_true.mpr (fun x _ => yaleFree_yaleToFale x)
    have hset := setTitle_yaleFree.1 (substNode doc2) _ httlf hsub
    exact appendStyle_yaleFree.1 _ hset

/-- Concrete document for the C1 witness. -/
def c1WitDoc : Node :=
  .elem (strOf "html") []
    (.cons (.elem (strOf "head") []
        (.cons (.elem (strOf "title") [] (.cons (.text (strOf "Yale Test")) .nil)) .nil))
      (.cons (.elem (strOf "body") []
        (.cons (.elem (strOf "p") [] (.cons (.text (strOf "Welcome to Yale")) .nil)) .nil)) .nil))

/-- Witness for C1: the rewrite of a concrete document succeeds and the
theorem applies to it. -/
theorem c1_text_substitution_witness :
    (textsOutside (theOk (rewriteDoc resolveModelE (strOf "https://example.com/") c1WitDoc)).1).all
        yaleFree = true
    ∧ yaleFree (theOk (rewriteDoc resolveModelE (strOf "https://example.com/") c1WitDoc)).2 = true :=
  c1_text_substitution.2 resolveModelE (strOf "https://example.com/") c1WitDoc _ _ rfl

/-- Concrete document for the C1 counterexample: no `script`/`style`
anywhere, `Yale` inside an ordinary attribute value. -/
def c1CexDoc : Node :=
  .elem (strOf "html") []
    (.cons (.elem (strOf "head") []
        (.cons (.elem (strOf "title") [] (.cons (.text (strOf "t")) .nil)) .nil))
      (.cons (.elem (strOf "body") []
        (.cons (.elem (strOf "p") [(strOf "title", strOf "Yale University")]
          (.cons (.text (strOf "Welcome to Yale")) .nil)) .nil)) .nil))

/-- Counterexample to C1 as stated: the input document contains no
`script`/`style` element at all, yet the serialized output of the
rewrite still contains the substring `Yale` — inside an attribute value,
which the substitution pass never touches. -/
theorem c1_counterexample :
    scriptStyleElems c1CexDoc = []
    ∧ okMap (fun p => decide (strOf "Yale" <:+: serializeNode p.1))
        (rewriteDoc resolveModelE (strOf "https://example.com/") c1CexDoc) = some true := by
  exact ⟨rfl, by decide⟩


/-- Substitution under a `script`/`style` parent leaves an all-text
child list unchanged. -/
theorem substUnder_textOnly :
    ∀ cs, ∀ p : Str, isScriptOrStyle p = true → allTextNodes cs = true →
      substUnder p cs = cs := by
  have h := nodeInd (P := fun _ => True)
    (Q := fun cs => ∀ p : Str, isScriptOrStyle p = true → allTextNodes cs = true →
      substUnder p cs = cs)
    (fun _ => trivial) (fun _ => trivial) (fun _ _ _ _ => trivial) ?_ ?_
  · exact h.2
  · intro p _ _; rfl
  · intro c cs _ ihcs p hp ht
    cases c with
    | text s =>
      simp only [allTextNodes] at ht
      simp [substUnder, hp, ihcs p hp ht]
    | comment s => simp [allTextNodes] at ht
    | elem n a cs2 => simp [allTextNodes] at ht

/-- C5: the substitution pass skips the entire subtree of every
`script` and `style` element: on any tree whose `script`/`style`
elements contain only text (as every parsed HTML document does), the
collection of complete `script`/`style` subtrees is unchanged. -/
theorem c5_script_style_untouched :
    ∀ t, scriptStyleTextOnly t = true →
      scriptStyleElems (substNode t) = scriptStyleElems t := by
  have h := nodeInd
    (P := fun t => scriptStyleTextOnly t = true →
      scriptStyleElems (substNode t) = scriptStyleElems t)
    (Q := fun cs => ∀ p : Str, scriptStyleTextOnlyL cs = true →
      scriptStyleElemsL (substUnder p cs) = scriptStyleElemsL cs)
    ?_ ?_ ?_ ?_ ?_
  · exact h.1
  · intro s _; rfl
  · intro s _; rfl
  · intro n a cs ih h
    simp only [scriptStyleTextOnly, Bool.and_eq_true] at h
    by_cases hn : isScriptOrStyle n = true
    · rw [show substNode (Node.elem n a cs) = Node.elem n a (substUnder n cs) from rfl,
        substUnder_textOnly cs n hn (by simpa [hn] using h.1)]
    · rw [show substNode (Node.elem n a cs) = Node.elem n a (substUnder n cs) from rfl]
      simp only [scriptStyleElems, hn, if_false]
      exact congrArg _ (ih n h.2)
  · intro p _; rfl
  · intro c cs ihc ihcs p h
    simp only [scriptStyleTextOnlyL, Bool.and_eq_true] at h
    cases c with
    | text s =>
      by_cases hp : isScriptOrStyle p = true <;>
        simp [substUnder, hp, scriptStyleElemsL, scriptStyleElems, ihcs p h.2]
    | comment s =>
      simp only [substUnder, substNode, scriptStyleElemsL, scriptStyleElems]
      simpa using ihcs p h.2
    | elem n a cs2 =>
      simp only [substUnder, scriptStyleElemsL]
      rw [ihc h.1, ihcs p h.2]

/-- Concrete document for the C5 witness: a `script` and a `style`
whose text mentions yale, next to an ordinary paragraph. -/
def c5WitDoc : Node :=
  .elem (strOf "html") []
    (.cons (.elem (strOf "head") []
        (.cons (.elem (strOf "style") [] (.cons (.text (strOf ".yale \x7b color: blue \x7d")) .nil)) .nil))
      (.cons (.elem (strOf "body") []
        (.cons (.elem (strOf "script") [] (.cons (.text (strOf "var yale = 1;")) .nil))
          (.cons (.elem (strOf "p") [] (.cons (.text (strOf "Yale")) .nil)) .nil))) .nil))

/-- Witness for C5: the theorem applies to a concrete parsed-shape
document carrying a script and a style block. -/
theorem c5_script_style_untouched_witness :
    scriptStyleElems (substNode c5WitDoc) = scriptStyleElems c5WitDoc :=
  c5_script_style_untouched c5WitDoc (by decide)


/-- Extracts the success payload of a handler result (junk otherwise). -/
def theOkBody : HandlerResult → SuccessBody
  | .ok b => b
  | _ => ⟨false, [], [], []⟩

/-- A tiny parsed document used to drive concrete handler runs. -/
def tinyDoc : Node :=
  .elem (strOf "html") []
    (.cons (.elem (strOf "head") []
        (.cons (.elem (strOf "title") [] (.cons (.text (strOf "t")) .nil)) .nil))
      (.cons (.elem (strOf "body") [] (.cons (.text (strOf "x")) .nil)) .nil))

/-- C6: a url starting with `http://` or `https://` case-insensitively is
left unchanged, any other url gets `https://` prepended (normalization is
a total function by construction), and on success the response's
`originalUrl` field is exactly the normalized url. -/
theorem c6_url_normalization :
    (∀ u : Str, (matchesHttpScheme u = true → normalizeUrl u = u)
      ∧ (matchesHttpScheme u = false → normalizeUrl u = strOf "https://" ++ u))
    ∧ (∀ (resolve : Str → Str → Except Str Str) (fetch : Str → Except Str Node)
        (u : Str) (body : SuccessBody),
        fetchHandler resolve fetch (.str u) = .ok body →
        body.originalUrl = normalizeUrl u) := by
  constructor
  · intro u
    constructor
    · intro h; simp [normalizeUrl, h]
    · intro h; simp [normalizeUrl, h]
  · intro resolve fetch u body h
    by_cases ht : truthy (JsVal.str u) = true
    · simp only [fetchHandler, ht, Bool.not_true, Bool.false_eq_true, if_false] at h
      cases hf : fetch (normalizeUrl u) with
      | error m => rw [hf] at h; exact absurd h (by simp)
      | ok doc =>
        rw [hf] at h
        dsimp only at h
        cases hr : rewriteDoc resolve (normalizeUrl u) doc with
        | error m => rw [hr] at h; exact absurd h (by simp)
        | ok p =>
          obtain ⟨d, t⟩ := p
          rw [hr] at h
          dsimp only at h
          cases h
          rfl
    · simp only [Bool.not_eq_true] at ht
      simp [fetchHandler, ht] at h

/-- Witness for C6: a concrete schemeless url is normalized and surfaces
in `originalUrl`. -/
theorem c6_url_normalization_witness :
    (theOkBody (fetchHandler resolveModelE (fun _ => .ok tinyDoc)
        (.str (strOf "example.com")))).originalUrl
      = normalizeUrl (strOf "example.com") :=
  c6_url_normalization.2 resolveModelE (fun _ => .ok tinyDoc) (strOf "example.com") _ rfl

/-- C7: an absent or empty (falsy) `url` yields a 400 response with
exactly the error `URL is required`, and the result does not depend on
the fetch or resolution functions — no outbound fetch is consulted. -/
theorem c7_missing_url :
    ∀ (resolve resolve2 : Str → Str → Except Str Str)
      (fetch fetch2 : Str → Except Str Node) (v : JsVal),
      truthy v = false →
      fetchHandler resolve fetch v = .badRequest urlRequiredMsg
      ∧ fetchHandler resolve fetch v = fetchHandler resolve2 fetch2 v := by
  intro r r2 f f2 v hv
  constructor <;> simp [fetchHandler, hv]

/-- Witness for C7: the absent-url and the empty-url request both get
the 400 response, independently of the fetch function. -/
theorem c7_missing_url_witness :
    fetchHandler resolveModelE (fun _ => .error (strOf "boom")) .undef
      = .badRequest urlRequiredMsg
    ∧ fetchHandler resolveModelE (fun _ => .error (strOf "boom")) .undef
      = fetchHandler resolveModelE (fun _ => .ok tinyDoc) .undef :=
  c7_missing_url resolveModelE resolveModelE (fun _ => .error (strOf "boom"))
    (fun _ => .ok tinyDoc) .undef (by decide)

/-- C8: a failing fetch, and a failing rewrite, each produce a 500
response whose error string is exactly the prefix
`Failed to fetch content: ` followed by the underlying message; and
every handler result is exactly one of a prefixed 500 error, the fixed
400 error, or a full success payload with `success = true` — there is no
partial-success state. -/
theorem c8_failure_responses :
    (∀ (resolve : Str → Str → Except Str Str) (fetch : Str → Except Str Node)
        (u m : Str), truthy (.str u) = true →
      fetch (normalizeUrl u) = .error m →
      fetchHandler resolve fetch (.str u) = .serverError (failMsgHead ++ m))
    ∧ (∀ (resolve : Str → Str → Except Str Str) (fetch : Str → Except Str Node)
        (u : Str) (doc : Node) (m : Str), truthy (.str u) = true →
      fetch (normalizeUrl u) = .ok doc →
      rewriteDoc resolve (normalizeUrl u) doc = .error m →
      fetchHandler resolve fetch (.str u) = .serverError (failMsgHead ++ m))
    ∧ (∀ (resolve : Str → Str → Except Str Str) (fetch : Str → Except Str Node)
        (v : JsVal),
      (∃ m, fetchHandler resolve fetch v = .serverError (failMsgHead ++ m))
      ∨ fetchHandler resolve fetch v = .badRequest urlRequiredMsg
      ∨ (∃ body, fetchHandler resolve fetch v = .ok body ∧ body.success = true)) := by
  refine ⟨?_, ?_, ?_⟩
  · intro resolve fetch u m ht hf
    simp [fetchHandler, ht, hf]
  · intro resolve fetch u doc m ht hf hr
    simp [fetchHandler, ht, hf, hr]
  · intro resolve fetch v
    by_cases ht : truthy v = true
    · cases v with
      | undef => simp [truthy] at ht
      | str u =>
        cases hf : fetch (normalizeUrl u) with
        | error m => exact Or.inl ⟨m, by simp [fetchHandler, ht, hf]⟩
        | ok doc =>
          cases hr : rewriteDoc resolve (normalizeUrl u) doc with
          | error m => exact Or.inl ⟨m, by simp [fetchHandler, ht, hf, hr]⟩
          | ok p =>
            obtain ⟨d, t⟩ := p
            exact Or.inr (Or.inr ⟨⟨true, serializeNode d, t, normalizeUrl u⟩,
              by simp [fetchHandler, ht, hf, hr], rfl⟩)
      | num n => exact Or.inl ⟨urlMatchTypeErrMsg, by simp [fetchHandler, ht]⟩
      | boolean b => exact Or.inl ⟨urlMatchTypeErrMsg, by simp [fetchHandler, ht]⟩
    · simp only [Bool.not_eq_true] at ht
      exact Or.inr (Or.inl (by simp [fetchHandler, ht]))

/-- Witness for C8: a concrete failing fetch yields the prefixed 500
error. -/
theorem c8_failure_responses_witness :
    fetchHandler resolveModelE (fun _ => .error (strOf "Connection refused"))
        (.str (strOf "https://error-site.com"))
      = .serverError (failMsgHead ++ strOf "Connection refused") :=
  c8_failure_responses.1 resolveModelE (fun _ => .error (strOf "Connection refused"))
    (strOf "https://error-site.com") (strOf "Connection refused") (by decide) rfl

/-- C10: a present, truthy, non-string `url` (here a number) is not
rejected with 400; the `TypeError` raised by `url.match` is caught by
the handler and surfaces as a 500 whose error string starts with
`Failed to fetch content: `. -/
theorem c10_nonstring_url :
    ∀ (resolve : Str → Str → Except Str Str) (fetch : Str → Except Str Node)
      (n : Int), n ≠ 0 →
      fetchHandler resolve fetch (.num n) = .serverError (failMsgHead ++ urlMatchTypeErrMsg)
      ∧ ∀ e, fetchHandler resolve fetch (.num n) ≠ .badRequest e := by
  intro resolve fetch n hn
  have ht : truthy (JsVal.num n) = true := by simp [truthy, hn]
  refine ⟨by simp [fetchHandler, ht], ?_⟩
  intro e h
  simp [fetchHandler, ht] at h

/-- Witness for C10: the JSON number `42` as url yields the prefixed 500
error, not a 400. -/
theorem c10_nonstring_url_witness :
    fetchHandler resolveModelE (fun _ => .ok tinyDoc) (.num 42)
      = .serverError (failMsgHead ++ urlMatchTypeErrMsg)
    ∧ ∀ e, fetchHandler resolveModelE (fun _ => .ok tinyDoc) (.num 42) ≠ .badRequest e :=
  c10_nonstring_url resolveModelE (fun _ => .ok tinyDoc) 42 (by decide)


/-- The disjunction of the five protected prefixes of `src/app.js:63`,
as the claims state them: `http`, `//`, `#`, `javascript:`, `data:`. -/
def startsAnySpecial (v : Str) : Bool :=
  List.isPrefixOf (strOf "http") v
    || List.isPrefixOf (strOf "//") v
    || List.isPrefixOf (strOf "#") v
    || List.isPrefixOf (strOf "javascript:") v
    || List.isPrefixOf (strOf "data:") v

/-- The source guard is exactly: non-empty and none of the five
prefixes. -/
theorem guardAttr_eq (v : Str) :
    guardAttr v = (!v.isEmpty && !startsAnySpecial v) := by
  simp [guardAttr, startsAnySpecial, Bool.not_or, Bool.and_assoc]

/-- The per-attribute contract of the absolutization pass: the name is
kept; a url attribute with a non-empty, unprotected value is resolved
against the source url; a protected, empty, or non-url attribute keeps
its value. -/
def attrRewriteSpec (resolve : Str → Str → Except Str Str) (url : Str)
    (p q : Str × Str) : Prop :=
  q.1 = p.1
  ∧ (urlAttrNames.contains p.1 = true → p.2 ≠ [] → startsAnySpecial p.2 = false →
      resolve p.2 url = .ok q.2)
  ∧ (startsAnySpecial p.2 = true → q.2 = p.2)
  ∧ (p.2 = [] → q.2 = p.2)
  ∧ (urlAttrNames.contains p.1 = false → q.2 = p.2)

/-- A successful single-attribute rewrite satisfies the contract. -/
theorem rewriteAttrPair_spec {resolve : Str → Str → Except Str Str} {url : Str}
    {p q : Str × Str} (h : rewriteAttrPair resolve url p = .ok q) :
    attrRewriteSpec resolve url p q := by
  unfold rewriteAttrPair at h
  by_cases hg : (urlAttrNames.contains p.1 && guardAttr p.2) = true
  · rw [if_pos hg] at h
    rw [Bool.and_eq_true] at hg
    obtain ⟨hc, hguard⟩ := hg
    rw [guardAttr_eq, Bool.and_eq_true, Bool.not_eq_true', Bool.not_eq_true'] at hguard
    obtain ⟨hne, hsp⟩ := hguard
    cases hr : resolve p.2 url with
    | error e => rw [hr] at h; exact absurd h (by simp)
    | ok w =>
      rw [hr] at h
      cases h
      refine ⟨rfl, fun _ _ _ => hr, ?_, ?_, ?_⟩
      · intro hsp2; rw [hsp] at hsp2; exact absurd hsp2 (by simp)
      · intro he; rw [he] at hne; simp at hne
      · intro hc2; rw [hc] at hc2; exact absurd hc2 (by simp)
  · rw [if_neg hg] at h
    cases h
    refine ⟨rfl, ?_, fun _ => rfl, fun _ => rfl, fun _ => rfl⟩
    intro hc hne hsp
    exfalso
    apply hg
    rw [Bool.and_eq_true, guardAttr_eq, Bool.and_eq_true]
    refine ⟨hc, ?_, ?_⟩
    · simp [List.isEmpty_iff, hne]
    · simp [hsp]

/-- Pointwise relations concatenate. -/
theorem forall₂Append {α β : Type} {R : α → β → Prop} {l₁ l₃ : List α} {l₂ l₄ : List β}
    (h1 : List.Forall₂ R l₁ l₂) (h2 : List.Forall₂ R l₃ l₄) :
    List.Forall₂ R (l₁ ++ l₃) (l₂ ++ l₄) := by
  induction h1 with
  | nil => simpa using h2
  | cons hr _ ih => exact List.Forall₂.cons hr ih

/-- A successful `mapE` run relates input and output pointwise. -/
theorem mapE_forall₂ {f : Str × Str → Except Str (Str × Str)}
    {R : Str × Str → Str × Str → Prop}
    (hf : ∀ x y, f x = .ok y → R x y) :
    ∀ {xs ys : List (Str × Str)}, mapE f xs = .ok ys → List.Forall₂ R xs ys := by
  intro xs
  induction xs with
  | nil => intro ys h; cases h; exact List.Forall₂.nil
  | cons x xs ih =>
    intro ys h
    unfold mapE at h
    cases hx : f x with
    | error e => rw [hx] at h; exact absurd h (by simp)
    | ok y =>
      rw [hx] at h
      cases hxs : mapE f xs with
      | error e => rw [hxs] at h; exact absurd h (by simp)
      | ok ys2 =>
        rw [hxs] at h
        cases h
        exact List.Forall₂.cons (hf x y hx) (ih hxs)

/-- C2 (amended): on a successful run of the absolutization pass, the
attribute lists of input and output correspond pointwise: names are
kept; a `src`/`href`/`action`/`data-src` attribute whose value is
non-empty and starts with none of `http`, `//`, `#`, `javascript:`,
`data:` is replaced by the resolver applied to the value and the source
url parameter (never a discovered base); a value starting with one of
those prefixes — or an empty value, or any other attribute — is never
modified. -/
theorem c2_attr_absolutization :
    ∀ (resolve : Str → Str → Except Str Str) (url : Str) (t t' : Node),
      rewriteUrlsNode resolve url t = .ok t' →
      List.Forall₂ (attrRewriteSpec resolve url) (attrsOf t) (attrsOf t') := by
  intro resolve url
  have h := nodeInd
    (P := fun t => ∀ t', rewriteUrlsNode resolve url t = .ok t' →
      List.Forall₂ (attrRewriteSpec resolve url) (attrsOf t) (attrsOf t'))
    (Q := fun cs => ∀ cs', rewriteUrlsList resolve url cs = .ok cs' →
      List.Forall₂ (attrRewriteSpec resolve url) (attrsOfL cs) (attrsOfL cs'))
    ?_ ?_ ?_ ?_ ?_
  · exact h.1
  · intro s t' h2
    cases h2
    exact List.Forall₂.nil
  · intro s t' h2
    cases h2
    exact List.Forall₂.nil
  · intro n a cs ih t' h2
    unfold rewriteUrlsNode at h2
    cases hm : mapE (rewriteAttrPair resolve url) a with
    | error e => rw [hm] at h2; exact absurd h2 (by simp)
    | ok a' =>
      rw [hm] at h2
      cases hcs : rewriteUrlsList resolve url cs with
      | error e => rw [hcs] at h2; exact absurd h2 (by simp)
      | ok cs' =>
        rw [hcs] at h2
        cases h2
        simp only [attrsOf]
        exact forall₂Append
          (mapE_forall₂ (R := attrRewriteSpec resolve url)
            (fun x y hxy => rewriteAttrPair_spec hxy) hm) (ih cs' hcs)
  · intro cs' h2
    cases h2
    exact List.Forall₂.nil
  · intro c cs ihc ihcs cs' h2
    unfold rewriteUrlsList at h2
    cases hc : rewriteUrlsNode resolve url c with
    | error e => rw [hc] at h2; exact absurd h2 (by simp)
    | ok c2 =>
      rw [hc] at h2
      cases hcs : rewriteUrlsList resolve url cs with
      | error e => rw [hcs] at h2; exact absurd h2 (by simp)
      | ok cs2 =>
        rw [hcs] at h2
        cases h2
        simp only [attrsOfL]
        exact forall₂Append (ihc c2 hc) (ihcs cs2 hcs)


/-- Extracts a successful node rewrite (junk on error). -/
def theOkNode : Except Str Node → Node
  | .ok t => t
  | .error _ => .text []

/-- Concrete document for the C2 witness: one relative `src`, one
fragment `href`. -/
def c2WitDoc : Node :=
  .elem (strOf "body") []
    (.cons (.elem (strOf "img") [(strOf "src", strOf "images/a.jpg")] .nil)
      (.cons (.elem (strOf "a") [(strOf "href", strOf "#x")]
        (.cons (.text (strOf "go")) .nil)) .nil))

/-- Witness for C2: the absolutization pass on a concrete document
satisfies the pointwise attribute contract. -/
theorem c2_attr_absolutization_witness :
    List.Forall₂ (attrRewriteSpec resolveModelE (strOf "https://site.com/page"))
      (attrsOf c2WitDoc)
      (attrsOf (theOkNode (rewriteUrlsNode resolveModelE (strOf "https://site.com/page") c2WitDoc))) :=
  c2_attr_absolutization resolveModelE (strOf "https://site.com/page") c2WitDoc _ rfl

/-- Concrete document for the C2 counterexample: an anchor with an
empty `href`. -/
def c2CexDoc : Node := .elem (strOf "a") [(strOf "href", [])] .nil

/-- Counterexample to C2 as stated: an empty `href` value starts with
none of the five prefixes, so per the claim it should be replaced by its
resolution against the source url (which is the non-empty base url
itself under standard resolution); the code's truthiness guard skips it
and the value stays empty. -/
theorem c2_counterexample :
    rewriteUrlsNode resolveModelE (strOf "https://example.com/page") c2CexDoc
      = .ok c2CexDoc
    ∧ urlAttrNames.contains (strOf "href") = true
    ∧ startsAnySpecial [] = false
    ∧ resolveUrlModel [] (strOf "https://example.com/page") ≠ [] :=
  ⟨rfl, by decide, by decide, by decide⟩

/-- Pointwise equality of fallible maps lifts through `mapE`. -/
theorem mapE_congr {f g : Str × Str → Except Str (Str × Str)}
    (h : ∀ x, f x = g x) : ∀ xs, mapE f xs = mapE g xs := by
  intro xs
  induction xs with
  | nil => rfl
  | cons x xs ih => unfold mapE; rw [h x, ih]

/-- The absolutization pass queries the resolver only at the source url:
two resolvers agreeing at `url` produce identical passes. -/
theorem rewriteUrls_resolver_congr (r r2 : Str → Str → Except Str Str) (url : Str)
    (hagree : ∀ v, r v url = r2 v url) :
    (∀ t, rewriteUrlsNode r url t = rewriteUrlsNode r2 url t)
    ∧ (∀ cs, rewriteUrlsList r url cs = rewriteUrlsList r2 url cs) := by
  have hpair : ∀ p, rewriteAttrPair r url p = rewriteAttrPair r2 url p := by
    intro p
    unfold rewriteAttrPair
    rw [hagree p.2]
  refine nodeInd ?_ ?_ ?_ ?_ ?_
  · intro s; rfl
  · intro s; rfl
  · intro n a cs ih
    unfold rewriteUrlsNode
    rw [mapE_congr hpair a, ih]
  · rfl
  · intro c cs ihc ihcs
    unfold rewriteUrlsList
    rw [ihc, ihcs]

/-- C3 (amended): when the input already has a `base` element with a
non-empty `href`, the base step inserts nothing and changes nothing (the
discovered href is dead); and the whole rewrite consults the resolver
only at the source url parameter, never at a discovered base — the
existing base element itself is later subject to the ordinary attribute
pass (see the counterexample). -/
theorem c3_existing_base :
    (∀ (url : Str) (doc : Node), baseHrefTruthy doc = true → baseStep url doc = doc)
    ∧ (∀ (r r2 : Str → Str → Except Str Str) (url : Str),
        (∀ v, r v url = r2 v url) →
        ∀ doc, rewriteDoc r url doc = rewriteDoc r2 url doc) := by
  constructor
  · intro url doc h
    unfold baseStep
    rw [if_pos h]
  · intro r r2 url hagree doc
    have h := (rewriteUrls_resolver_congr r r2 url hagree).1 (baseStep url doc)
    exact congrArg (fun x =>
      match x with
      | Except.error e => Except.error e
      | Except.ok doc2 =>
        Except.ok (appendStyleToHeads
            (setTitleText (yaleToFale (titleTexts (substNode doc2))) (substNode doc2)),
          yaleToFale (titleTexts (substNode doc2)))) h

/-- Concrete document for the C3 counterexample: an existing base with a
relative href, and a relative image source. -/
def c3CexDoc : Node :=
  .elem (strOf "html") []
    (.cons (.elem (strOf "head") []
        (.cons (.elem (strOf "base") [(strOf "href", strOf "/sub/")] .nil)
          (.cons (.elem (strOf "title") [] (.cons (.text (strOf "t")) .nil)) .nil)))
      (.cons (.elem (strOf "body") []
        (.cons (.elem (strOf "img") [(strOf "src", strOf "images/a.png")] .nil) .nil)) .nil))

/-- Counterexample to C3 as stated: with an existing `<base href="/sub/">`,
the rewrite resolves the image against the source url (yielding
`…/x/images/a.png`, not a `/sub/`-based value) and rewrites the base
element's own href to an absolute url — the discovered href is not used
as the resolution base, and the base element is modified. -/
theorem c3_counterexample :
    baseHrefTruthy c3CexDoc = true
    ∧ okMap (fun p => attrsOf p.1)
        (rewriteDoc resolveModelE (strOf "https://example.com/x/page") c3CexDoc)
      = some [(strOf "href", strOf "https://example.com/sub/"),
              (strOf "src", strOf "https://example.com/x/images/a.png")]
    ∧ strOf "https://example.com/sub/" ≠ strOf "/sub/"
    ∧ strOf "https://example.com/x/images/a.png"
        ≠ resolveUrlModel (strOf "images/a.png") (strOf "/sub/") := by
  refine ⟨by decide, by decide, by decide, by decide⟩

/-- Concrete resolver for the C3 witness, agreeing with the model
resolver at the witness url only. -/
def c3AltResolver (v b : Str) : Except Str Str :=
  if b = strOf "https://w.org/" then .ok (resolveUrlModel v b) else .error (strOf "other base")

/-- Witness for C3: a concrete document with an existing non-empty base
is untouched by the base step, and two resolvers agreeing at the source
url give identical rewrites. -/
theorem c3_existing_base_witness :
    baseStep (strOf "https://w.org/") c3CexDoc = c3CexDoc
    ∧ rewriteDoc resolveModelE (strOf "https://w.org/") c3CexDoc
        = rewriteDoc c3AltResolver (strOf "https://w.org/") c3CexDoc :=
  ⟨c3_existing_base.1 (strOf "https://w.org/") c3CexDoc (by decide),
   c3_existing_base.2 resolveModelE c3AltResolver (strOf "https://w.org/")
     (fun v => by simp [c3AltResolver, resolveModelE]) c3CexDoc⟩


mutual
/-- Number of elements with a given tag name in the tree. -/
def countElems (name : Str) : Node → Nat
  | .text _ => 0
  | .comment _ => 0
  | .elem n _ cs => (if n = name then 1 else 0) + countElemsL name cs
termination_by structural t => t
/-- List worker for `countElems`. -/
def countElemsL (name : Str) : NodeList → Nat
  | .nil => 0
  | .cons c cs => countElems name c + countElemsL name cs
termination_by structural l => l
end

mutual
/-- Holds when the first child of every `head` element is exactly
`<base href="{url}">`. -/
def headsFirstIsBase (url : Str) : Node → Bool
  | .text _ => true
  | .comment _ => true
  | .elem n _ cs =>
    (if n = strOf "head" then
      (match cs with
       | .cons (.elem b [(an, av)] .nil) _ =>
         decide (b = strOf "base") && decide (an = strOf "href") && decide (av = url)
       | _ => false)
     else true) && headsFirstIsBaseL url cs
termination_by structural t => t
/-- List worker for `headsFirstIsBase`. -/
def headsFirstIsBaseL (url : Str) : NodeList → Bool
  | .nil => true
  | .cons c cs => headsFirstIsBase url c && headsFirstIsBaseL url cs
termination_by structural l => l
end

/-- A tree without `base` elements has no first base element. -/
theorem findBase_eq_none :
    (∀ t, countElems (strOf "base") t = 0 → findBase t = none)
    ∧ (∀ cs, countElemsL (strOf "base") cs = 0 → findBaseL cs = none) := by
  refine nodeInd ?_ ?_ ?_ ?_ ?_
  · intro s _; rfl
  · intro s _; rfl
  · intro n a cs ih h
    simp only [countElems, Nat.add_eq_zero] at h
    by_cases hn : n = strOf "base"
    · rw [hn] at h; simp at h
    · simp only [findBase, hn, if_false]
      exact ih h.2
  · intro _; rfl
  · intro c cs ihc ihcs h
    simp only [countElemsL, Nat.add_eq_zero] at h
    simp only [findBaseL, ihc h.1, ihcs h.2]

/-- Prepending the base node adds one `base` element per `head`
element. -/
theorem countBase_prepend (url : Str) :
    (∀ t, countElems (strOf "base") (prependToHeads (baseNode url) t)
      = countElems (strOf "base") t + countElems (strOf "head") t)
    ∧ (∀ cs, countElemsL (strOf "base") (prependToHeadsL (baseNode url) cs)
      = countElemsL (strOf "base") cs + countElemsL (strOf "head") cs) := by
  refine nodeInd ?_ ?_ ?_ ?_ ?_
  · intro s; rfl
  · intro s; rfl
  · intro n a cs ih
    by_cases hn : n = strOf "head"
    · subst hn
      have hrw : prependToHeads (baseNode url) (Node.elem (strOf "head") a cs)
          = Node.elem (strOf "head") a
              (.cons (baseNode url) (prependToHeadsL (baseNode url) cs)) := by
        simp [prependToHeads]
      rw [hrw]
      have ih2 := ih
      simp only [baseNode] at ih2
      simp only [baseNode, countElems, countElemsL, ih2, if_true,
        (show ¬ strOf "head" = strOf "base" by decide), if_false]
      omega
    · have hrw : prependToHeads (baseNode url) (Node.elem n a cs)
          = Node.elem n a (prependToHeadsL (baseNode url) cs) := by
        simp [prependToHeads, hn]
      rw [hrw]
      simp only [countElems, ih, hn, if_false]
      omega
  · rfl
  · intro c cs ihc ihcs
    simp only [prependToHeadsL, countElemsL, ihc, ihcs]
    omega

/-- After prepending, the first child of every `head` is the inserted
base element. -/
theorem headsFirstIsBase_prepend (url : Str) :
    (∀ t, headsFirstIsBase url (prependToHeads (baseNode url) t) = true)
    ∧ (∀ cs, headsFirstIsBaseL url (prependToHeadsL (baseNode url) cs) = true) := by
  refine nodeInd ?_ ?_ ?_ ?_ ?_
  · intro s; rfl
  · intro s; rfl
  · intro n a cs ih
    by_cases hn : n = strOf "head"
    · subst hn
      have hrw : prependToHeads (baseNode url) (Node.elem (strOf "head") a cs)
          = Node.elem (strOf "head") a
              (.cons (baseNode url) (prependToHeadsL (baseNode url) cs)) := by
        simp [prependToHeads]
      rw [hrw]
      simp only [headsFirstIsBase, if_pos rfl, baseNode, headsFirstIsBaseL,
        Bool.and_eq_true]
      refine ⟨by simp, ?_, ?_⟩
      · simp [headsFirstIsBase, headsFirstIsBaseL,
          (show ¬ strOf "base" = strOf "head" by decide)]
      · simpa [baseNode] using ih
    · have hrw : prependToHeads (baseNode url) (Node.elem n a cs)
          = Node.elem n a (prependToHeadsL (baseNode url) cs) := by
        simp [prependToHeads, hn]
      rw [hrw]
      simp only [headsFirstIsBase, hn, if_false, Bool.true_and]
      exact ih
  · rfl
  · intro c cs ihc ihcs
    simp only [prependToHeadsL, headsFirstIsBaseL, ihc, ihcs, Bool.and_self]

/-- C4 (amended): when a base with a truthy href exists, the base step
inserts nothing and leaves the document unchanged; when the document has
no base element at all, the base step adds exactly one
`<base href="{url}">` per `head` element (so exactly one for the single
`head` of a parsed document), as its first child; and a base href that
starts with one of the five protected prefixes is never modified by the
attribute pass — an unprotected href is rewritten to its resolution (see
the counterexample). -/
theorem c4_base_tag_policy :
    (∀ (url : Str) (doc : Node), baseHrefTruthy doc = true → baseStep url doc = doc)
    ∧ (∀ (url : Str) (doc : Node), countElems (strOf "base") doc = 0 →
        countElems (strOf "base") (baseStep url doc) = countElems (strOf "head") doc
        ∧ headsFirstIsBase url (baseStep url doc) = true)
    ∧ (∀ (resolve : Str → Str → Except Str Str) (url n v : Str),
        startsAnySpecial v = true →
        rewriteAttrPair resolve url (n, v) = .ok (n, v)) := by
  refine ⟨?_, ?_, ?_⟩
  · intro url doc h
    unfold baseStep
    rw [if_pos h]
  · intro url doc h
    have hfb : findBase doc = none := findBase_eq_none.1 doc h
    have hbt : baseHrefTruthy doc = false := by
      unfold baseHrefTruthy
      rw [hfb]
    unfold baseStep
    rw [hbt]
    simp only [Bool.false_eq_true, if_false]
    refine ⟨?_, (headsFirstIsBase_prepend url).1 doc⟩
    rw [(countBase_prepend url).1 doc, h]
    omega
  · intro resolve url n v hsp
    unfold rewriteAttrPair
    have hg : (urlAttrNames.contains (n, v).1 && guardAttr (n, v).2) = false := by
      rw [guardAttr_eq]
      simp [hsp]
    rw [hg]
    simp

/-- Concrete document without any base element, for the C4 witness. -/
def c4WitDoc : Node :=
  .elem (strOf "html") []
    (.cons (.elem (strOf "head") []
        (.cons (.elem (strOf "title") [] (.cons (.text (strOf "t")) .nil)) .nil))
      (.cons (.elem (strOf "body") [] (.cons (.text (strOf "x")) .nil)) .nil))

/-- Witness for C4: on a concrete base-less single-head document the
base step inserts exactly one base, as the head's first child; and a
protected href is untouched by the attribute pass. -/
theorem c4_base_tag_policy_witness :
    (countElems (strOf "base") (baseStep (strOf "https://w.org/") c4WitDoc)
        = countElems (strOf "head") c4WitDoc
      ∧ headsFirstIsBase (strOf "https://w.org/")
          (baseStep (strOf "https://w.org/") c4WitDoc) = true)
    ∧ rewriteAttrPair resolveModelE (strOf "https://w.org/")
        (strOf "href", strOf "#frag") = .ok (strOf "href", strOf "#frag") :=
  ⟨c4_base_tag_policy.2.1 (strOf "https://w.org/") c4WitDoc (by decide),
   c4_base_tag_policy.2.2 resolveModelE (strOf "https://w.org/")
     (strOf "href") (strOf "#frag") (by decide)⟩

/-- First base element's href, if any. -/
def firstBaseHref (t : Node) : Option Str :=
  match findBase t with
  | some (.elem _ a _) => getAttr (strOf "href") a
  | _ => none

/-- Concrete document for the C4 counterexample: an existing base whose
href is relative. -/
def c4CexDoc : Node :=
  .elem (strOf "html") []
    (.cons (.elem (strOf "head") []
        (.cons (.elem (strOf "base") [(strOf "href", strOf "assets/")] .nil)
          (.cons (.elem (strOf "title") [] (.cons (.text (strOf "t")) .nil)) .nil)))
      (.cons (.elem (strOf "body") [] (.cons (.text (strOf "x")) .nil)) .nil))

/-- Counterexample to C4 as stated: a non-empty existing base href
`assets/` is not preserved verbatim — the attribute pass rewrites it to
its resolution against the source url. -/
theorem c4_counterexample :
    baseHrefTruthy c4CexDoc = true
    ∧ okMap (fun p => firstBaseHref p.1)
        (rewriteDoc resolveModelE (strOf "https://h.com/d/p") c4CexDoc)
      = some (some (strOf "https://h.com/d/assets/"))
    ∧ strOf "https://h.com/d/assets/" ≠ strOf "assets/" :=
  ⟨by decide, by decide, by decide⟩


mutual
/-- Element skeleton of a single node: tag names and element nesting
only (text, comments and attributes erased). -/
def skelN : Node → NodeList
  | .text _ => .nil
  | .comment _ => .nil
  | .elem n _ cs => .cons (.elem n [] (skelL cs)) .nil
termination_by structural t => t
/-- Element skeleton of a child list. -/
def skelL : NodeList → NodeList
  | .nil => .nil
  | .cons c rest => nlAppend (skelN c) (skelL rest)
termination_by structural l => l
end

mutual
/-- Skeleton-level effect of the base insertion: a `base` skeleton
prepended to the children of every `head`. -/
def skelAddBaseN : Node → Node
  | .text s => .text s
  | .comment s => .comment s
  | .elem n a cs =>
    let cs' := skelAddBaseL cs
    .elem n a (if n = strOf "head" then .cons (.elem (strOf "base") [] .nil) cs' else cs')
termination_by structural t => t
/-- List worker for `skelAddBaseN`. -/
def skelAddBaseL : NodeList → NodeList
  | .nil => .nil
  | .cons c rest => .cons (skelAddBaseN c) (skelAddBaseL rest)
termination_by structural l => l
end

mutual
/-- Skeleton-level effect of the style injection: a `style` skeleton
appended to the children of every `head`. -/
def skelAddStyleN : Node → Node
  | .text s => .text s
  | .comment s => .comment s
  | .elem n a cs =>
    let cs' := skelAddStyleL cs
    .elem n a (if n = strOf "head" then
      nlAppend cs' (.cons (.elem (strOf "style") [] .nil) .nil) else cs')
termination_by structural t => t
/-- List worker for `skelAddStyleN`. -/
def skelAddStyleL : NodeList → NodeList
  | .nil => .nil
  | .cons c rest => .cons (skelAddStyleN c) (skelAddStyleL rest)
termination_by structural l => l
end

mutual
/-- Skeleton-level effect of the title step: the children of every
`title` element are emptied. -/
def skelDropTitleN : Node → Node
  | .text s => .text s
  | .comment s => .comment s
  | .elem n a cs =>
    .elem n a (if n = strOf "title" then .nil else skelDropTitleL cs)
termination_by structural t => t
/-- List worker for `skelDropTitleN`. -/
def skelDropTitleL : NodeList → NodeList
  | .nil => .nil
  | .cons c rest => .cons (skelDropTitleN c) (skelDropTitleL rest)
termination_by structural l => l
end

/-- Emptiness test for child lists. -/
def nlIsNil : NodeList → Bool
  | .nil => true
  | .cons _ _ => false

mutual
/-- Holds when every `title` element of the (skeleton) tree has no
children — true of the skeleton of every parsed HTML document, whose
`title` content is raw text. -/
def skelTitlesNilN : Node → Bool
  | .text _ => true
  | .comment _ => true
  | .elem n _ cs => if n = strOf "title" then nlIsNil cs else skelTitlesNilL cs
termination_by structural t => t
/-- List worker for `skelTitlesNilN`. -/
def skelTitlesNilL : NodeList → Bool
  | .nil => true
  | .cons c rest => skelTitlesNilN c && skelTitlesNilL rest
termination_by structural l => l
end

/-- Child-list append is associative. -/
theorem nlAppend_assoc : ∀ a b c : NodeList,
    nlAppend (nlAppend a b) c = nlAppend a (nlAppend b c) := by
  have h := nodeInd (P := fun _ => True)
    (Q := fun a => ∀ b c : NodeList,
      nlAppend (nlAppend a b) c = nlAppend a (nlAppend b c))
    (fun _ => trivial) (fun _ => trivial) (fun _ _ _ _ => trivial) ?_ ?_
  · exact h.2
  · intro b c; rfl
  · intro x xs _ ih b c
    simp only [nlAppend]
    rw [ih]

/-- Skeletons distribute over child-list append. -/
theorem skelL_nlAppend : ∀ a b : NodeList,
    skelL (nlAppend a b) = nlAppend (skelL a) (skelL b) := by
  have h := nodeInd (P := fun _ => True)
    (Q := fun a => ∀ b : NodeList, skelL (nlAppend a b) = nlAppend (skelL a) (skelL b))
    (fun _ => trivial) (fun _ => trivial) (fun _ _ _ _ => trivial) ?_ ?_
  · exact h.2
  · intro b; rfl
  · intro c cs _ ih b
    simp only [nlAppend, skelL]
    rw [ih, nlAppend_assoc]

/-- The title-emptying transform distributes over append. -/
theorem skelDropTitleL_nlAppend : ∀ a b : NodeList,
    skelDropTitleL (nlAppend a b) = nlAppend (skelDropTitleL a) (skelDropTitleL b) := by
  have h := nodeInd (P := fun _ => True)
    (Q := fun a => ∀ b : NodeList,
      skelDropTitleL (nlAppend a b) = nlAppend (skelDropTitleL a) (skelDropTitleL b))
    (fun _ => trivial) (fun _ => trivial) (fun _ _ _ _ => trivial) ?_ ?_
  · exact h.2
  · intro b; rfl
  · intro c cs _ ih b
    simp only [nlAppend, skelDropTitleL]
    rw [ih]

/-- The base-prepending transform distributes over append. -/
theorem skelAddBaseL_nlAppend : ∀ a b : NodeList,
    skelAddBaseL (nlAppend a b) = nlAppend (skelAddBaseL a) (skelAddBaseL b) := by
  have h := nodeInd (P := fun _ => True)
    (Q := fun a => ∀ b : NodeList,
      skelAddBaseL (nlAppend a b) = nlAppend (skelAddBaseL a) (skelAddBaseL b))
    (fun _ => trivial) (fun _ => trivial) (fun _ _ _ _ => trivial) ?_ ?_
  · exact h.2
  · intro b; rfl
  · intro c cs _ ih b
    simp only [nlAppend, skelAddBaseL]
    rw [ih]

/-- The style-appending transform distributes over append. -/
theorem skelAddStyleL_nlAppend : ∀ a b : NodeList,
    skelAddStyleL (nlAppend a b) = nlAppend (skelAddStyleL a) (skelAddStyleL b) := by
  have h := nodeInd (P := fun _ => True)
    (Q := fun a => ∀ b : NodeList,
      skelAddStyleL (nlAppend a b) = nlAppend (skelAddStyleL a) (skelAddStyleL b))
    (fun _ => trivial) (fun _ => trivial) (fun _ _ _ _ => trivial) ?_ ?_
  · exact h.2
  · intro b; rfl
  · intro c cs _ ih b
    simp only [nlAppend, skelAddStyleL]
    rw [ih]

/-- The substitution pass does not change the element skeleton. -/
theorem skel_subst :
    (∀ t, skelN (substNode t) = skelN t)
    ∧ (∀ cs, ∀ p : Str, skelL (substUnder p cs) = skelL cs) := by
  refine nodeInd ?_ ?_ ?_ ?_ ?_
  · intro s; rfl
  · intro s; rfl
  · intro n a cs ih
    rw [show substNode (Node.elem n a cs) = Node.elem n a (substUnder n cs) from rfl]
    simp only [skelN]
    rw [ih n]
  · intro p; rfl
  · intro c cs ihc ihcs p
    cases c with
    | text s =>
      by_cases hp : isScriptOrStyle p = true
      · rw [show substUnder p (NodeList.cons (Node.text s) cs)
              = NodeList.cons (Node.text s) (substUnder p cs) by
            simp [substUnder, hp]]
        simp only [skelL, skelN, ihcs p]
      · rw [show substUnder p (NodeList.cons (Node.text s) cs)
              = NodeList.cons (Node.text (yaleToFale s)) (substUnder p cs) by
            simp [substUnder, hp]]
        simp only [skelL, skelN, ihcs p]
    | comment s =>
      simp only [substUnder, substNode, skelL, skelN, ihcs p]
    | elem n a cs2 =>
      simp only [substUnder, skelL]
      rw [ihc, ihcs p]

/-- The attribute pass does not change the element skeleton. -/
theorem skel_rewriteUrls (resolve : Str → Str → Except Str Str) (url : Str) :
    (∀ t t', rewriteUrlsNode resolve url t = .ok t' → skelN t' = skelN t)
    ∧ (∀ cs cs', rewriteUrlsList resolve url cs = .ok cs' → skelL cs' = skelL cs) := by
  refine nodeInd ?_ ?_ ?_ ?_ ?_
  · intro s t' h; cases h; rfl
  · intro s t' h; cases h; rfl
  · intro n a cs ih t' h
    unfold rewriteUrlsNode at h
    cases hm : mapE (rewriteAttrPair resolve url) a with
    | error e => rw [hm] at h; exact absurd h (by simp)
    | ok a2 =>
      rw [hm] at h
      cases hcs : rewriteUrlsList resolve url cs with
      | error e => rw [hcs] at h; exact absurd h (by simp)
      | ok cs2 =>
        rw [hcs] at h
        cases h
        simp only [skelN]
        rw [ih cs2 hcs]
  · intro cs' h; cases h; rfl
  · intro c cs ihc ihcs cs' h
    unfold rewriteUrlsList at h
    cases hc : rewriteUrlsNode resolve url c with
    | error e => rw [hc] at h; exact absurd h (by simp)
    | ok c2 =>
      rw [hc] at h
      cases hcs : rewriteUrlsList resolve url cs with
      | error e => rw [hcs] at h; exact absurd h (by simp)
      | ok cs2 =>
        rw [hcs] at h
        cases h
        simp only [skelL]
        rw [ihc c2 hc, ihcs cs2 hcs]

/-- Skeleton effect of the base insertion. -/
theorem skel_prependBase (url : Str) :
    (∀ t, skelN (prependToHeads (baseNode url) t) = skelAddBaseL (skelN t))
    ∧ (∀ cs, skelL (prependToHeadsL (baseNode url) cs) = skelAddBaseL (skelL cs)) := by
  refine nodeInd ?_ ?_ ?_ ?_ ?_
  · intro s; rfl
  · intro s; rfl
  · intro n a cs ih
    by_cases hn : n = strOf "head"
    · subst hn
      rw [show prependToHeads (baseNode url) (Node.elem (strOf "head") a cs)
            = Node.elem (strOf "head") a
                (.cons (baseNode url) (prependToHeadsL (baseNode url) cs)) by
          simp [prependToHeads]]
      exact congrArg (fun z => NodeList.cons (Node.elem (strOf "head") []
        (NodeList.cons (Node.elem (strOf "base") [] NodeList.nil) z)) NodeList.nil) ih
    · rw [show prependToHeads (baseNode url) (Node.elem n a cs)
            = Node.elem n a (prependToHeadsL (baseNode url) cs) by
          simp [prependToHeads, hn]]
      rw [show skelAddBaseL (skelN (Node.elem n a cs))
            = NodeList.cons (Node.elem n [] (skelAddBaseL (skelL cs))) NodeList.nil by
          simp [skelN, skelAddBaseL, skelAddBaseN, hn]]
      exact congrArg (fun z => NodeList.cons (Node.elem n [] z) NodeList.nil) ih
  · rfl
  · intro c cs ihc ihcs
    simp only [prependToHeadsL, skelL]
    rw [ihc, ihcs, skelAddBaseL_nlAppend]

/-- Skeleton effect of the title step. -/
theorem skel_setTitle (ttl : Str) :
    (∀ t, skelN (setTitleText ttl t) = skelDropTitleL (skelN t))
    ∧ (∀ cs, skelL (setTitleTextL ttl cs) = skelDropTitleL (skelL cs)) := by
  refine nodeInd ?_ ?_ ?_ ?_ ?_
  · intro s; rfl
  · intro s; rfl
  · intro n a cs ih
    by_cases hn : n = strOf "title"
    · subst hn
      rw [show setTitleText ttl (Node.elem (strOf "title") a cs)
            = Node.elem (strOf "title") a (.cons (.text ttl) .nil) by
          simp [setTitleText]]
      rfl
    · rw [show setTitleText ttl (Node.elem n a cs)
            = Node.elem n a (setTitleTextL ttl cs) by
          simp [setTitleText, hn]]
      rw [show skelDropTitleL (skelN (Node.elem n a cs))
            = NodeList.cons (Node.elem n [] (skelDropTitleL (skelL cs))) NodeList.nil by
          simp [skelN, skelDropTitleL, skelDropTitleN, hn]]
      exact congrArg (fun z => NodeList.cons (Node.elem n [] z) NodeList.nil) ih
  · rfl
  · intro c cs ihc ihcs
    simp only [setTitleTextL, skelL]
    rw [ihc, ihcs, skelDropTitleL_nlAppend]

/-- Skeleton effect of the style injection. -/
theorem skel_appendStyle :
    (∀ t, skelN (appendStyleToHeads t) = skelAddStyleL (skelN t))
    ∧ (∀ cs, skelL (appendStyleToHeadsL cs) = skelAddStyleL (skelL cs)) := by
  refine nodeInd ?_ ?_ ?_ ?_ ?_
  · intro s; rfl
  · intro s; rfl
  · intro n a cs ih
    by_cases hn : n = strOf "head"
    · subst hn
      rw [show appendStyleToHeads (Node.elem (strOf "head") a cs)
            = Node.elem (strOf "head") a
                (nlAppend (appendStyleToHeadsL cs) styleFragment) by
          simp [appendStyleToHeads]]
      rw [show skelN (Node.elem (strOf "head") a
              (nlAppend (appendStyleToHeadsL cs) styleFragment))
            = NodeList.cons (Node.elem (strOf "head")
                [] (skelL (nlAppend (appendStyleToHeadsL cs) styleFragment)))
                NodeList.nil from rfl,
          skelL_nlAppend, ih]
      rfl
    · rw [show appendStyleToHeads (Node.elem n a cs)
            = Node.elem n a (appendStyleToHeadsL cs) by
          simp [appendStyleToHeads, hn]]
      rw [show skelAddStyleL (skelN (Node.elem n a cs))
            = NodeList.cons (Node.elem n [] (skelAddStyleL (skelL cs))) NodeList.nil by
          simp [skelN, skelAddStyleL, skelAddStyleN, hn]]
      exact congrArg (fun z => NodeList.cons (Node.elem n [] z) NodeList.nil) ih
  · rfl
  · intro c cs ihc ihcs
    simp only [appendStyleToHeadsL, skelL]
    rw [ihc, ihcs, skelAddStyleL_nlAppend]

/-- Emptying title children is the identity on skeletons whose titles
are already childless. -/
theorem skelDropTitle_id :
    (∀ t, skelTitlesNilN t = true → skelDropTitleN t = t)
    ∧ (∀ cs, skelTitlesNilL cs = true → skelDropTitleL cs = cs) := by
  refine nodeInd ?_ ?_ ?_ ?_ ?_
  · intro s _; rfl
  · intro s _; rfl
  · intro n a cs ih h
    by_cases hn : n = strOf "title"
    · subst hn
      simp only [skelTitlesNilN, if_pos rfl] at h
      cases cs with
      | nil => rfl
      | cons c cs2 => simp [nlIsNil] at h
    · simp only [skelTitlesNilN, hn, if_false] at h
      simp only [skelDropTitleN, hn, if_false]
      rw [ih h]
  · intro _; rfl
  · intro c cs ihc ihcs h
    simp only [skelTitlesNilL, Bool.and_eq_true] at h
    simp only [skelDropTitleL]
    rw [ihc h.1, ihcs h.2]

/-- Prepending base skeletons into heads keeps titles childless. -/
theorem skelAddBase_titlesNil :
    (∀ t, skelTitlesNilN t = true → skelTitlesNilN (skelAddBaseN t) = true)
    ∧ (∀ cs, skelTitlesNilL cs = true → skelTitlesNilL (skelAddBaseL cs) = true) := by
  refine nodeInd ?_ ?_ ?_ ?_ ?_
  · intro s _; rfl
  · intro s _; rfl
  · intro n a cs ih h
    by_cases ht : n = strOf "title"
    · subst ht
      simp only [skelTitlesNilN, if_pos rfl] at h
      cases cs with
      | nil =>
        rw [show skelAddBaseN (Node.elem (strOf "title") a .nil)
              = Node.elem (strOf "title") a .nil by
            simp [skelAddBaseN, skelAddBaseL,
              (show ¬ strOf "title" = strOf "head" by decide)]]
        rfl
      | cons c cs2 => simp [nlIsNil] at h
    · simp only [skelTitlesNilN, ht, if_false] at h
      by_cases hh : n = strOf "head"
      · subst hh
        rw [show skelAddBaseN (Node.elem (strOf "head") a cs)
              = Node.elem (strOf "head") a
                  (.cons (.elem (strOf "base") [] .nil) (skelAddBaseL cs)) by
            simp [skelAddBaseN]]
        simp only [skelTitlesNilN, ht, if_false, skelTitlesNilL, Bool.and_eq_true]
        exact ⟨by decide, ih h⟩
      · rw [show skelAddBaseN (Node.elem n a cs)
              = Node.elem n a (skelAddBaseL cs) by
            simp [skelAddBaseN, hh]]
        simp only [skelTitlesNilN, ht, if_false]
        exact ih h
  · intro _; rfl
  · intro c cs ihc ihcs h
    simp only [skelTitlesNilL, Bool.and_eq_true] at h
    simp only [skelAddBaseL, skelTitlesNilL, Bool.and_eq_true]
    exact ⟨ihc h.1, ihcs h.2⟩


/-- C9: on a successful rewrite of a document whose `title` elements
contain no child elements (true of every parsed HTML document, where
title content is raw text), the element skeleton of the output equals
the input skeleton with exactly the claimed injections: one `style`
skeleton appended to each `head`, and a `base` skeleton prepended to
each `head` exactly when the input had no base element with a truthy
href — all text-node and attribute changes are invisible at the element
level, so the element structure is otherwise identical. -/
theorem c9_structure_invariant :
    ∀ (resolve : Str → Str → Except Str Str) (url : Str) (doc out : Node) (ttl : Str),
      rewriteDoc resolve url doc = .ok (out, ttl) →
      skelTitlesNilL (skelN doc) = true →
      skelN out = skelAddStyleL
        (if baseHrefTruthy doc then skelN doc else skelAddBaseL (skelN doc)) := by
  intro resolve url doc out ttl h htn
  have hdef : rewriteDoc resolve url doc
      = match rewriteUrlsNode resolve url (baseStep url doc) with
        | .error e => .error e
        | .ok doc2 =>
          .ok (appendStyleToHeads
                (setTitleText (yaleToFale (titleTexts (substNode doc2))) (substNode doc2)),
              yaleToFale (titleTexts (substNode doc2))) := rfl
  rw [hdef] at h
  cases hrw : rewriteUrlsNode resolve url (baseStep url doc) with
  | error e => rw [hrw] at h; exact absurd h (by simp)
  | ok doc2 =>
    rw [hrw] at h
    simp only [Except.ok.injEq, Prod.mk.injEq] at h
    obtain ⟨hout, -⟩ := h
    subst hout
    rw [skel_appendStyle.1, (skel_setTitle _).1, skel_subst.1,
      (skel_rewriteUrls resolve url).1 _ _ hrw]
    by_cases hb : baseHrefTruthy doc = true
    · rw [show baseStep url doc = doc by unfold baseStep; rw [if_pos hb]]
      rw [skelDropTitle_id.2 _ htn]
      simp [hb]
    · have hb2 : baseHrefTruthy doc = false := by simpa using hb
      rw [show baseStep url doc = prependToHeads (baseNode url) doc by
          unfold baseStep; rw [hb2]; simp]
      rw [(skel_prependBase url).1,
        skelDropTitle_id.2 _ (skelAddBase_titlesNil.2 _ htn)]
      simp [hb2]

/-- Witness for C9: the theorem applies to a concrete base-less
document. -/
theorem c9_structure_invariant_witness :
    skelN (theOk (rewriteDoc resolveModelE (strOf "https://w.org/") tinyDoc)).1
      = skelAddStyleL (if baseHrefTruthy tinyDoc then skelN tinyDoc
          else skelAddBaseL (skelN tinyDoc)) :=
  c9_structure_invariant resolveModelE (strOf "https://w.org/") tinyDoc _ _ rfl (by decide)

end Faleproxy
